import Mathlib

/-!
Shallow embedding of `src/main.py` (commit-statistics / GitHub identity
resolution tool) and proofs about its specification.

Python strings are modelled by Lean `String`, Python `None`-able strings by
`Option String`, Python dicts (which preserve insertion order) by association
lists, and the GitHub API by oracle functions passed as parameters.  Each
API-backed lookup returns, besides its result and the updated cache, the
number of API calls it performed.
-/

namespace Coders

/-! ### Python string primitives -/

/-- Characters stripped by Python `str.strip()` (ASCII whitespace). -/
def pyIsSpace (c : Char) : Bool :=
  c = ' ' || c = '\t' || c = '\n' || c = '\r' || c = '\x0b' || c = '\x0c'

/-- Python `str.strip()`. -/
def pyStrip (s : String) : String :=
  String.mk (((s.data.dropWhile pyIsSpace).reverse.dropWhile pyIsSpace).reverse)

/-- Python `str.lower()` (ASCII letters, the domain used by the program). -/
def pyLower (s : String) : String :=
  String.mk (s.data.map Char.toLower)

/-- First component of Python `s.split(c)`: the part of `s` before the first
occurrence of `c` (all of `s` when `c` does not occur). -/
def pyTakeBeforeChar (c : Char) (s : String) : String :=
  String.mk (s.data.takeWhile (fun a => a ≠ c))

/-- Test whether `pre` is a prefix of `l`. -/
def listIsPre : List Char → List Char → Bool
  | [], _ => true
  | _ :: _, [] => false
  | a :: as, b :: bs => a = b && listIsPre as bs

/-- Test whether `needle` occurs as a contiguous substring of `hay`
(Python `needle in hay`). -/
def listHasSub (needle : List Char) : List Char → Bool
  | [] => needle.isEmpty
  | c :: rest => listIsPre needle (c :: rest) || listHasSub needle rest

/-- Python `needle in s` on strings. -/
def strContains (needle s : String) : Bool :=
  listHasSub needle.data s.data

/-- Python `s.split(c)` (keeping empty parts). -/
def splitOnChar (c : Char) : List Char → List (List Char)
  | [] => [[]]
  | a :: rest =>
    if a = c then [] :: splitOnChar c rest
    else
      match splitOnChar c rest with
      | [] => [[a]]
      | g :: gs => (a :: g) :: gs

/-- Python `s.split('/')[-1]`: the part after the last `/`. -/
def lastSegment (s : String) : String :=
  String.mk ((splitOnChar '/' s.data).getLastD [])

/-- Python `s.split('\\n')`: split on a single character, keeping empty
parts. -/
def pySplitLines (s : String) : List String :=
  (splitOnChar '\n' s.data).map String.mk

/-- Python `x or y` where `x` is an optional string: `y` when `x` is `None`
or empty, otherwise `x`. -/
def pyOrStr (x : Option String) (y : String) : String :=
  match x with
  | none => y
  | some s => if s = "" then y else s

/-! ### Data model (section 3 of the spec) -/

/-- One resolved identity: the five-field result dict built by
`lookup_profile_from_commit` / `lookup_user_details` and the main loop. -/
structure IdentityDetail where
  profile_url : String
  name : String
  linkedin : String
  website : String
  company : String
deriving DecidableEq, Repr

/-- A commit author as returned by the GitHub API (`commit.author`). -/
structure AuthorInfo where
  html_url : String
  name : Option String
  login : String
deriving DecidableEq, Repr

/-- A commit as returned by the GitHub API (`repository.get_commit`). -/
structure CommitInfo where
  author : Option AuthorInfo
deriving DecidableEq, Repr

/-- A user as returned by the GitHub API (`github_client.get_user`). -/
structure UserInfo where
  html_url : String
  name : Option String
  login : String
  blog : Option String
  company : Option String
deriving DecidableEq, Repr

/-- The profile cache: a dict from cache keys (`commit_<sha>`, `user_<login>`)
to result dicts, as an insertion-ordered association list. -/
abbrev Cache := List (String × IdentityDetail)

/-- Python `key in cache` / `cache[key]`: value of the given key, if present. -/
def cacheGet (cache : Cache) (k : String) : Option IdentityDetail :=
  (cache.find? (fun p => p.1 == k)).map (fun p => p.2)

/-- Python `cache[key] = v`: replace in place, or append a new binding. -/
def cacheSet : Cache → String → IdentityDetail → Cache
  | [], k, v => [(k, v)]
  | (k', v') :: c, k, v =>
    if k' == k then (k, v) :: c else (k', v') :: cacheSet c k v

/-! ### `parse_blog_url` (src/main.py lines 134-143) -/

/-- Faithful translation of `parse_blog_url`: empty input yields two empty
fields; otherwise the value is stripped and routed to the `linkedin` field
when its lower-casing contains `linkedin.com`, else to the `website` field. -/
def parse_blog_url (blog_url : String) : String × String :=
  if blog_url = "" then ("", "")
  else
    let b := pyStrip blog_url
    if strContains "linkedin.com" (pyLower b) then (b, "") else ("", b)

/-! ### Cached API lookups (src/main.py lines 118-132 and 145-166) -/

/-- Faithful translation of `lookup_profile_from_commit`.  `getCommit` is the
GitHub API oracle (`repository.get_commit`); the third component counts the
API calls performed. -/
def lookup_profile_from_commit (getCommit : String → CommitInfo) (sha : String)
    (cache : Cache) : IdentityDetail × Cache × Nat :=
  let key := "commit_" ++ sha
  match cacheGet cache key with
  | some v => (v, cache, 0)
  | none =>
    let commit := getCommit sha
    let result : IdentityDetail :=
      match commit.author with
      | none => ⟨"", "", "", "", ""⟩
      | some a => ⟨a.html_url, pyOrStr a.name a.login, "", "", ""⟩
    (result, cacheSet cache key result, 1)

/-- Faithful translation of `lookup_user_details`.  `getUser` is the GitHub
API oracle (`github_client.get_user`). -/
def lookup_user_details (getUser : String → UserInfo) (login : String)
    (cache : Cache) : IdentityDetail × Cache × Nat :=
  let key := "user_" ++ login
  match cacheGet cache key with
  | some v => (v, cache, 0)
  | none =>
    let user := getUser login
    let blog_url := pyOrStr user.blog ""
    let lw := parse_blog_url blog_url
    let result : IdentityDetail :=
      ⟨user.html_url, pyOrStr user.name user.login, lw.1, lw.2, pyOrStr user.company ""⟩
    (result, cacheSet cache key result, 1)

/-! ### Per-record identity resolution (src/main.py lines 207-226) -/

/-- The candidate login derived from an email: `email.split('@')[0].lower()`. -/
def emailLoginGuess (email : String) : String :=
  pyLower (pyTakeBeforeChar '@' email)

/-- The scan over `login_to_profile.items()`: the first contributor entry
whose lower-cased login equals the candidate login. -/
def findLoginMatch (contribs : List (String × String)) (guess : String) :
    Option (String × String) :=
  contribs.find? (fun p => pyLower p.1 == guess)

/-- Faithful translation of the resolution performed for one email in the
main loop: login-guess tier, then the commit-author fallback, escalating to a
full user-detail lookup in detailed mode. -/
def resolveIdentity (includeDetails : Bool) (getCommit : String → CommitInfo)
    (getUser : String → UserInfo) (contribs : List (String × String))
    (email sha : String) (cache : Cache) : IdentityDetail × Cache × Nat :=
  match findLoginMatch contribs (emailLoginGuess email) with
  | some (login, profileUrl) =>
    if includeDetails then lookup_user_details getUser login cache
    else (⟨profileUrl, "", "", "", ""⟩, cache, 0)
  | none =>
    let r1 := lookup_profile_from_commit getCommit sha cache
    if includeDetails && r1.1.profile_url != "" then
      let login := lastSegment r1.1.profile_url
      let r2 := lookup_user_details getUser login r1.2.1
      (r2.1, r2.2.1, r1.2.2 + r2.2.2)
    else r1

/-! ### Commit aggregation (src/main.py lines 61-84) -/

/-- The per-email statistics dict: `{'commits': ..., 'sha': ..., 'name': ...}`. -/
structure EmailStats where
  commits : Nat
  sha : String
  name : String
deriving DecidableEq, Repr

/-- Number of `|` characters in a string (Python `line.count('|')`). -/
def barCount (s : String) : Nat :=
  s.data.count '|'

/-- Python `line.split('|', 2)` for a line with at least two separators:
the parts before the first `|`, between the first and second, and after the
second (which may itself contain further `|` characters). -/
def splitBar2 (l : List Char) : List Char × List Char × List Char :=
  let name := l.takeWhile (fun c => c ≠ '|')
  let rest := (l.dropWhile (fun c => c ≠ '|')).drop 1
  let email := rest.takeWhile (fun c => c ≠ '|')
  let sha := (rest.dropWhile (fun c => c ≠ '|')).drop 1
  (name, email, sha)

/-- One `defaultdict` update of `email_stats` for a parsed line: a fresh email
is appended with count 1; an existing email has its count incremented and its
`sha`/`name` filled only while still empty (Python truthiness checks). -/
def updateRecord : List (String × EmailStats) → String → String → String →
    List (String × EmailStats)
  | [], e, n, s => [(e, ⟨1, s, n⟩)]
  | (e', st) :: recs, e, n, s =>
    if e' == e then
      (e', ⟨st.commits + 1,
            if st.sha = "" then s else st.sha,
            if st.name = "" then n else st.name⟩) :: recs
    else (e', st) :: updateRecord recs e n s

/-- The body of the `for line in ...` loop of `get_commit_email_stats`. -/
def processLine (recs : List (String × EmailStats)) (line : String) :
    List (String × EmailStats) :=
  let l := pyStrip line
  if 2 ≤ barCount l then
    let parts := splitBar2 l.data
    updateRecord recs (pyStrip (String.mk parts.2.1))
      (pyStrip (String.mk parts.1)) (pyStrip (String.mk parts.2.2))
  else recs

/-- Aggregation over a list of log lines. -/
def aggregateLines (lines : List String) : List (String × EmailStats) :=
  lines.foldl processLine []

/-- Faithful translation of `get_commit_email_stats`, starting from the raw
stdout of `git log --format=%an|%ae|%H --all`. -/
def get_commit_email_stats (stdout : String) : List (String × EmailStats) :=
  aggregateLines (pySplitLines (pyStrip stdout))

/-- Value of `email_stats[e]['commits']` in the final mapping (0 if absent). -/
def commitsOf (recs : List (String × EmailStats)) (e : String) : Nat :=
  (((recs.find? (fun p => p.1 == e)).map (fun p => p.2.commits))).getD 0

/-- Value of `email_stats[e]['sha']` in the final mapping ("" if absent). -/
def shaOf (recs : List (String × EmailStats)) (e : String) : String :=
  (((recs.find? (fun p => p.1 == e)).map (fun p => p.2.sha))).getD ""

/-- Value of `email_stats[e]['name']` in the final mapping ("" if absent). -/
def nameOf (recs : List (String × EmailStats)) (e : String) : String :=
  (((recs.find? (fun p => p.1 == e)).map (fun p => p.2.name))).getD ""

/-- Well-formedness test applied to each line (after stripping): at least two
`|` separators.  The code's `'|' in line and line.count('|') >= 2` is
equivalent to the second conjunct alone. -/
def lineWellFormed (line : String) : Bool :=
  2 ≤ barCount (pyStrip line)

/-- The (stripped) email field of a log line. -/
def lineEmail (line : String) : String :=
  pyStrip (String.mk (splitBar2 (pyStrip line).data).2.1)

/-- The (stripped) name field of a log line. -/
def lineName (line : String) : String :=
  pyStrip (String.mk (splitBar2 (pyStrip line).data).1)

/-- The (stripped) sha field of a log line. -/
def lineSha (line : String) : String :=
  pyStrip (String.mk (splitBar2 (pyStrip line).data).2.2)

/-- Whether a line is well formed and carries email `e`. -/
def lineMatches (e : String) (line : String) : Bool :=
  lineWellFormed line && lineEmail line == e

/-- First non-empty string in a list, or `""`: the value held by a
fill-while-empty field after a sequence of updates. -/
def firstNonEmpty : List String → String
  | [] => ""
  | x :: xs => if x = "" then firstNonEmpty xs else x

/-! ### Report pipeline (src/main.py lines 196-199) -/

/-- Python `l[:n]` (slice with a possibly negative bound). -/
def pySlice (l : List α) (n : Int) : List α :=
  if 0 ≤ n then l.take n.toNat else l.take (l.length - (-n).toNat)

/-- The descending-count comparison used by `sorted(..., reverse=True)`:
`a` may come before `b` exactly when `a` has at least as many commits. -/
def byCommitsDesc (a b : String × EmailStats) : Prop :=
  b.2.commits ≤ a.2.commits

instance : DecidableRel byCommitsDesc := fun a b => Nat.decLe b.2.commits a.2.commits

instance : IsTotal (String × EmailStats) byCommitsDesc :=
  ⟨fun a b => Nat.le_total b.2.commits a.2.commits⟩

instance : IsTrans (String × EmailStats) byCommitsDesc :=
  ⟨fun _ _ _ hab hbc => le_trans hbc hab⟩

/-- Faithful translation of the filter / sort / limit steps of `main`:
keep records with at least `minCommits` commits, stable-sort by commit count
descending (Python's `sorted` is stable; `reverse=True` preserves the order
of equal keys), and slice to `limit` rows — but only when `args.limit` is
truthy, i.e. present and non-zero. -/
def reportRecords (minCommits : Int) (limit : Option Int)
    (recs : List (String × EmailStats)) : List (String × EmailStats) :=
  let filtered := recs.filter (fun p => minCommits ≤ (p.2.commits : Int))
  let sortedRecs := filtered.insertionSort byCommitsDesc
  match limit with
  | none => sortedRecs
  | some n => if n = 0 then sortedRecs else pySlice sortedRecs n

/-! ### `parse_github_url` (src/main.py lines 14-26)

The two anchored regular expressions are compiled by hand into backtracking
matchers.  `re.match` anchors at the start; `$` matches at the end of the
string or just before a final newline.  In the HTTPS pattern the owner group
`([^/]+)` cannot contain `/` and is followed by a literal `/`, so it is
forced to be the segment before the first `/`; the repo group `([^/]+?)` is
lazy, so the shortest feasible repo is captured, the feasible tails being
`(?:\.git)?/?$`.  The SSH pattern is analogous with repo group `(.+?)`
(any characters except newline, possibly containing `/`) and tails
`(?:\.git)?$`. -/

/-- Strings matchable by `(?:\.git)?/?$` at the end of the HTTPS pattern. -/
def httpsTailOk (t : List Char) : Bool :=
  t == [] || t == ['/'] || t == ['\n'] || t == ['/', '\n'] ||
  t == ".git".data || t == ".git/".data || t == ".git\n".data || t == ".git/\n".data

/-- Strings matchable by `(?:\.git)?$` at the end of the SSH pattern. -/
def sshTailOk (t : List Char) : Bool :=
  t == [] || t == ['\n'] || t == ".git".data || t == ".git\n".data

/-- Lazy match of a repo group followed by an optional-tail pattern: the
accumulator `b` holds the (reversed) repo candidate, extended one character
at a time as long as the character is not the excluded one (`[^/]` resp. `.`);
the shortest non-empty candidate whose remainder is a feasible tail is
captured, exactly as the lazy `+?` quantifier backtracks. -/
def lazyRepoMatch (bad : Char) (tailOk : List Char → Bool) :
    List Char → List Char → Option (List Char)
  | b, [] => if !b.isEmpty && tailOk [] then some b.reverse else none
  | b, c :: rest =>
    if !b.isEmpty && tailOk (c :: rest) then some b.reverse
    else if c = bad then none
    else lazyRepoMatch bad tailOk (c :: b) rest

/-- Lazy match of `([^/]+?)` followed by `(?:\.git)?/?$`. -/
def findRepoHttps : List Char → List Char → Option (List Char) :=
  lazyRepoMatch '/' httpsTailOk

/-- Lazy match of `(.+?)` followed by `(?:\.git)?$`. -/
def findRepoSsh : List Char → List Char → Option (List Char) :=
  lazyRepoMatch '\n' sshTailOk

/-- Remove a literal leading pattern, or fail. -/
def stripPre : List Char → List Char → Option (List Char)
  | [], l => some l
  | _ :: _, [] => none
  | a :: as, b :: bs => if a = b then stripPre as bs else none

/-- Match of `([^/]+)/`: split at the first `/` (the greedy owner group
cannot contain `/` and must be followed by one, so it is the segment before
the first `/`); the owner may not be empty. -/
def takeOwner : List Char → Option (List Char × List Char)
  | [] => none
  | c :: rest =>
    if c = '/' then some ([], rest)
    else (takeOwner rest).map (fun p => (c :: p.1, p.2))

/-- Faithful translation of `parse_github_url`: `some (owner, repo)` when one
of the two regular expressions matches, `none` for the `ValueError` branch. -/
def parse_github_url (url : String) : Option (String × String) :=
  match stripPre "https://github.com/".data url.data with
  | some u =>
    match takeOwner u with
    | some (o, rest) =>
      if o.isEmpty then none
      else (findRepoHttps [] rest).map (fun r => (String.mk o, String.mk r))
    | none => none
  | none =>
    match stripPre "git@github.com:".data url.data with
    | some u =>
      match takeOwner u with
      | some (o, rest) =>
        if o.isEmpty then none
        else (findRepoSsh [] rest).map (fun r => (String.mk o, String.mk r))
      | none => none
    | none => none

/-- The accepted HTTPS shape, written declaratively from the spec sentence as
amended: `https://github.com/<owner>/<repo>` with owner non-empty and
slash-free, repo non-empty and slash-free, an optional `.git` suffix, an
optional trailing `/`, and an optional trailing newline. -/
def httpsFormSpec (cs : List Char) : Prop :=
  ∃ o r g sl nl : List Char,
    cs = "https://github.com/".data ++ o ++ '/' :: (r ++ (g ++ (sl ++ nl)))
    ∧ o ≠ [] ∧ '/' ∉ o ∧ r ≠ [] ∧ '/' ∉ r
    ∧ (g = [] ∨ g = ".git".data)
    ∧ (sl = [] ∨ sl = ['/'])
    ∧ (nl = [] ∨ nl = ['\n'])

/-- The accepted SSH shape, written declaratively from the spec sentence as
amended: `git@github.com:<owner>/<repo>` with owner non-empty and slash-free,
repo non-empty and newline-free (slashes allowed), an optional `.git` suffix,
and an optional trailing newline. -/
def sshFormSpec (cs : List Char) : Prop :=
  ∃ o r g nl : List Char,
    cs = "git@github.com:".data ++ o ++ '/' :: (r ++ (g ++ nl))
    ∧ o ≠ [] ∧ '/' ∉ o ∧ r ≠ [] ∧ '\n' ∉ r
    ∧ (g = [] ∨ g = ".git".data)
    ∧ (nl = [] ∨ nl = ['\n'])

/-! ### Cache lemmas -/

/-- Writing a key and reading it back yields the written value. -/
theorem cacheGet_cacheSet_self : ∀ (c : Cache) (k : String) (v : IdentityDetail),
    cacheGet (cacheSet c k v) k = some v
  | [], k, v => by simp [cacheGet, cacheSet, List.find?]
  | (k', v') :: c, k, v => by
    by_cases h : k' = k
    · subst h; simp [cacheGet, cacheSet, List.find?]
    · simp only [cacheSet, beq_iff_eq, if_neg h, cacheGet, List.find?]
      have hb : (k' == k) = false := beq_eq_false_iff_ne.mpr h
      rw [hb]
      exact cacheGet_cacheSet_self c k v

/-- A cache hit in `lookup_profile_from_commit` returns the cached value,
leaves the cache unchanged, and performs no API call. -/
theorem lookup_commit_hit (gc : String → CommitInfo) (sha : String) (cache : Cache)
    (v : IdentityDetail) (h : cacheGet cache ("commit_" ++ sha) = some v) :
    lookup_profile_from_commit gc sha cache = (v, cache, 0) := by
  simp [lookup_profile_from_commit, h]

/-- After `lookup_profile_from_commit` the returned value is in the cache
under the commit key. -/
theorem lookup_commit_caches (gc : String → CommitInfo) (sha : String) (cache : Cache) :
    cacheGet (lookup_profile_from_commit gc sha cache).2.1 ("commit_" ++ sha)
      = some (lookup_profile_from_commit gc sha cache).1 := by
  cases h : cacheGet cache ("commit_" ++ sha) with
  | some v => simp [lookup_profile_from_commit, h]
  | none => simp [lookup_profile_from_commit, h, cacheGet_cacheSet_self]

/-- A cache hit in `lookup_user_details` returns the cached value, leaves the
cache unchanged, and performs no API call. -/
theorem lookup_user_hit (gu : String → UserInfo) (login : String) (cache : Cache)
    (v : IdentityDetail) (h : cacheGet cache ("user_" ++ login) = some v) :
    lookup_user_details gu login cache = (v, cache, 0) := by
  simp [lookup_user_details, h]

/-- After `lookup_user_details` the returned value is in the cache under the
user key. -/
theorem lookup_user_caches (gu : String → UserInfo) (login : String) (cache : Cache) :
    cacheGet (lookup_user_details gu login cache).2.1 ("user_" ++ login)
      = some (lookup_user_details gu login cache).1 := by
  cases h : cacheGet cache ("user_" ++ login) with
  | some v => simp [lookup_user_details, h]
  | none => simp [lookup_user_details, h, cacheGet_cacheSet_self]

/-- C2: every API-backed lookup (commit lookup, user-detail lookup) checks
the cache by key first — a hit returns the cached value with zero API calls —
and on a miss writes the computed result (even an empty one) into the cache
before returning, so a second resolution of the same key, starting from the
cache state the first one produced, performs no API call and returns exactly
the value the first one cached. -/
theorem c2_cache_idempotence :
    (∀ (gc : String → CommitInfo) (sha : String) (cache : Cache) (v : IdentityDetail),
        cacheGet cache ("commit_" ++ sha) = some v →
        lookup_profile_from_commit gc sha cache = (v, cache, 0))
  ∧ (∀ (gc : String → CommitInfo) (sha : String) (cache : Cache),
        cacheGet (lookup_profile_from_commit gc sha cache).2.1 ("commit_" ++ sha)
          = some (lookup_profile_from_commit gc sha cache).1)
  ∧ (∀ (gc : String → CommitInfo) (sha : String) (cache : Cache),
        lookup_profile_from_commit gc sha (lookup_profile_from_commit gc sha cache).2.1
          = ((lookup_profile_from_commit gc sha cache).1,
             (lookup_profile_from_commit gc sha cache).2.1, 0))
  ∧ (∀ (gu : String → UserInfo) (login : String) (cache : Cache) (v : IdentityDetail),
        cacheGet cache ("user_" ++ login) = some v →
        lookup_user_details gu login cache = (v, cache, 0))
  ∧ (∀ (gu : String → UserInfo) (login : String) (cache : Cache),
        cacheGet (lookup_user_details gu login cache).2.1 ("user_" ++ login)
          = some (lookup_user_details gu login cache).1)
  ∧ (∀ (gu : String → UserInfo) (login : String) (cache : Cache),
        lookup_user_details gu login (lookup_user_details gu login cache).2.1
          = ((lookup_user_details gu login cache).1,
             (lookup_user_details gu login cache).2.1, 0)) :=
  ⟨lookup_commit_hit,
   lookup_commit_caches,
   fun gc sha cache => lookup_commit_hit gc sha _ _ (lookup_commit_caches gc sha cache),
   lookup_user_hit,
   lookup_user_caches,
   fun gu login cache => lookup_user_hit gu login _ _ (lookup_user_caches gu login cache)⟩

/-- C2 witness: a concrete cache hit spends no API call and returns the
cached value. -/
theorem c2_witness :
    lookup_profile_from_commit (fun _ => ⟨none⟩) "s"
        [("commit_s", ⟨"u", "", "", "", ""⟩)]
      = (⟨"u", "", "", "", ""⟩, [("commit_s", ⟨"u", "", "", "", ""⟩)], 0) :=
  c2_cache_idempotence.1 (fun _ => ⟨none⟩) "s" _ _ (by decide)

/-- C1: in basic mode the login-guess tier derives the candidate login as the
part of the email before `@`, lower-cased, matches contributor logins
case-insensitively (`John@x.com` matches `john` but not `johnny`), and on a
match returns an `IdentityDetail` with only `profile_url` populated, an
unchanged cache, and zero API calls. -/
theorem c1_login_guess_basic :
    (∀ (gc : String → CommitInfo) (gu : String → UserInfo)
        (contribs : List (String × String)) (email sha : String) (cache : Cache)
        (login url : String),
        findLoginMatch contribs (emailLoginGuess email) = some (login, url) →
        resolveIdentity false gc gu contribs email sha cache
          = (⟨url, "", "", "", ""⟩, cache, 0))
  ∧ (∀ (contribs : List (String × String)) (guess : String),
        (findLoginMatch contribs guess).isSome ↔ ∃ p ∈ contribs, pyLower p.1 = guess)
  ∧ emailLoginGuess "John@x.com" = "john"
  ∧ findLoginMatch [("john", "https://github.com/john")] (emailLoginGuess "John@x.com")
      = some ("john", "https://github.com/john")
  ∧ findLoginMatch [("johnny", "https://github.com/johnny")] (emailLoginGuess "John@x.com")
      = none := by
  refine ⟨?_, ?_, by decide, by decide, by decide⟩
  · intro gc gu contribs email sha cache login url h
    unfold resolveIdentity
    rw [h]
    rfl
  · intro contribs guess
    simp [findLoginMatch, List.find?_isSome]

/-- C1 witness: the login guess resolves `John@x.com` against contributor
login `john` with no API call. -/
theorem c1_witness :
    resolveIdentity false (fun _ => ⟨none⟩) (fun _ => ⟨"", none, "", none, none⟩)
        [("john", "u1")] "John@x.com" "sha0" []
      = (⟨"u1", "", "", "", ""⟩, [], 0) :=
  c1_login_guess_basic.1 (fun _ => ⟨none⟩) (fun _ => ⟨"", none, "", none, none⟩)
    [("john", "u1")] "John@x.com" "sha0" [] "john" "u1" (by decide)

/-- Fresh commit lookups only ever populate `profile_url` and `name`. -/
theorem lookup_commit_fields (gc : String → CommitInfo) (sha : String) (cache : Cache)
    (hinv : ∀ v, cacheGet cache ("commit_" ++ sha) = some v →
        v.linkedin = "" ∧ v.website = "" ∧ v.company = "") :
    (lookup_profile_from_commit gc sha cache).1.linkedin = ""
    ∧ (lookup_profile_from_commit gc sha cache).1.website = ""
    ∧ (lookup_profile_from_commit gc sha cache).1.company = "" := by
  cases h : cacheGet cache ("commit_" ++ sha) with
  | some v =>
    have := hinv v h
    simp [lookup_profile_from_commit, h, this.1, this.2.1, this.2.2]
  | none => cases ha : (gc sha).author <;> simp [lookup_profile_from_commit, h, ha]

/-- C3: with no login-guess match, basic-mode resolution is exactly the
commit-author fallback; its result never populates `linkedin`, `website` or
`company` (given that cached commit entries, which only this lookup writes,
satisfy the same invariant), and a commit with no linked author yields the
all-empty `IdentityDetail` as an ordinary return value. -/
theorem c3_commit_fallback_fields :
    ∀ (gc : String → CommitInfo) (gu : String → UserInfo)
      (contribs : List (String × String)) (email sha : String) (cache : Cache),
      findLoginMatch contribs (emailLoginGuess email) = none →
      (∀ v, cacheGet cache ("commit_" ++ sha) = some v →
          v.linkedin = "" ∧ v.website = "" ∧ v.company = "") →
      resolveIdentity false gc gu contribs email sha cache
          = lookup_profile_from_commit gc sha cache
      ∧ (resolveIdentity false gc gu contribs email sha cache).1.linkedin = ""
      ∧ (resolveIdentity false gc gu contribs email sha cache).1.website = ""
      ∧ (resolveIdentity false gc gu contribs email sha cache).1.company = ""
      ∧ (cacheGet cache ("commit_" ++ sha) = none → (gc sha).author = none →
          (resolveIdentity false gc gu contribs email sha cache).1
            = ⟨"", "", "", "", ""⟩) := by
  intro gc gu contribs email sha cache hmatch hinv
  have heq : resolveIdentity false gc gu contribs email sha cache
      = lookup_profile_from_commit gc sha cache := by
    unfold resolveIdentity
    rw [hmatch]
    simp
  obtain ⟨h1, h2, h3⟩ := lookup_commit_fields gc sha cache hinv
  refine ⟨heq, heq ▸ h1, heq ▸ h2, heq ▸ h3, ?_⟩
  intro hmiss hauthor
  rw [heq]
  simp [lookup_profile_from_commit, hmiss, hauthor]

/-- C3 witness: an email with no contributor match and a commit with no
linked author resolves to the all-empty identity. -/
theorem c3_witness :
    resolveIdentity false (fun _ => ⟨none⟩) (fun _ => ⟨"", none, "", none, none⟩)
        [] "bob@x.com" "sha1" [] = lookup_profile_from_commit (fun _ => ⟨none⟩) "sha1" []
    ∧ (resolveIdentity false (fun _ => ⟨none⟩) (fun _ => ⟨"", none, "", none, none⟩)
        [] "bob@x.com" "sha1" []).1 = ⟨"", "", "", "", ""⟩ := by
  have h := c3_commit_fallback_fields (fun _ => ⟨none⟩)
    (fun _ => ⟨"", none, "", none, none⟩) [] "bob@x.com" "sha1" []
    (by decide) (by intro v hv; simp [cacheGet] at hv)
  exact ⟨h.1, h.2.2.2.2 (by decide) rfl⟩

/-- C4 counterexample: `parse_blog_url` strips the blog value first, so for
`" linkedin.com"` the populated `linkedin` field is not the full blog value,
and the non-empty, whitespace-only value `" "` populates neither field. -/
theorem c4_counterexample :
    (parse_blog_url " linkedin.com" = ("linkedin.com", "")
      ∧ ("linkedin.com" : String) ≠ " linkedin.com")
  ∧ (parse_blog_url " " = ("", "") ∧ (" " : String) ≠ "") := by
  constructor
  · exact ⟨by decide, by decide⟩
  · exact ⟨by decide, by decide⟩

/-- C4 (amended): the blog value is stripped of surrounding whitespace first;
if the stripped value contains `linkedin.com` in any letter case only
`linkedin` is populated (with the stripped value), any other value non-empty
after stripping populates only `website` (with the stripped value), and a
value that strips to empty populates neither — never are both populated. -/
theorem c4_blog_split_amended :
    ∀ blog : String,
      ¬((parse_blog_url blog).1 ≠ "" ∧ (parse_blog_url blog).2 ≠ "")
      ∧ (pyStrip blog = "" → parse_blog_url blog = ("", ""))
      ∧ (pyStrip blog ≠ "" →
          strContains "linkedin.com" (pyLower (pyStrip blog)) = true →
          parse_blog_url blog = (pyStrip blog, ""))
      ∧ (pyStrip blog ≠ "" →
          strContains "linkedin.com" (pyLower (pyStrip blog)) = false →
          parse_blog_url blog = ("", pyStrip blog)) := by
  intro blog
  by_cases hb : blog = ""
  · subst hb
    refine ⟨by simp [parse_blog_url], fun _ => by simp [parse_blog_url], ?_, ?_⟩
    · intro hne _; exact absurd (by decide) hne
    · intro hne _; exact absurd (by decide) hne
  · refine ⟨?_, ?_, ?_, ?_⟩
    · by_cases hc : strContains "linkedin.com" (pyLower (pyStrip blog)) = true
      · simp [parse_blog_url, hb, hc]
      · simp [parse_blog_url, hb, hc]
    · intro hs
      simp [parse_blog_url, hb, hs,
        show strContains "linkedin.com" (pyLower "") = false from by decide]
    · intro _ hc
      simp [parse_blog_url, hb, hc]
    · intro _ hc
      simp [parse_blog_url, hb, hc]

/-- C4 witness: a linkedin-bearing blog value populates only the `linkedin`
field, with the stripped value. -/
theorem c4_witness :
    parse_blog_url " LinkedIn.com/in/a " = ("LinkedIn.com/in/a", "") :=
  (c4_blog_split_amended " LinkedIn.com/in/a ").2.2.1 (by decide) (by decide)

/-! ### Aggregator lemmas -/

/-- A `processLine` step, phrased through the per-line field accessors. -/
theorem processLine_eq (recs : List (String × EmailStats)) (line : String) :
    processLine recs line
      = if lineWellFormed line
        then updateRecord recs (lineEmail line) (lineName line) (lineSha line)
        else recs := by
  simp [processLine, lineWellFormed, lineEmail, lineName, lineSha]

/-- Effect of one `updateRecord` on the commit count of any email. -/
theorem commitsOf_updateRecord :
    ∀ (recs : List (String × EmailStats)) (e n s e' : String),
      commitsOf (updateRecord recs e n s) e'
        = commitsOf recs e' + (if e = e' then 1 else 0)
  | [], e, n, s, e' => by
    by_cases h : e = e'
    · subst h; simp [commitsOf, updateRecord, List.find?]
    · simp [commitsOf, updateRecord, List.find?, h, beq_eq_false_iff_ne.mpr h]
  | (a, st) :: recs, e, n, s, e' => by
    by_cases hae : a = e
    · subst hae
      by_cases hae' : a = e'
      · subst hae'; simp [commitsOf, updateRecord, List.find?]
      · simp [commitsOf, updateRecord, List.find?, hae',
          beq_eq_false_iff_ne.mpr hae', Ne.symm hae']
    · by_cases hae' : a = e'
      · subst hae'
        simp [commitsOf, updateRecord, List.find?, beq_eq_false_iff_ne.mpr hae,
          Ne.symm hae]
      · simp only [updateRecord, beq_eq_false_iff_ne.mpr hae, Bool.false_eq_true,
          if_false, commitsOf, List.find?, beq_eq_false_iff_ne.mpr hae']
        exact commitsOf_updateRecord recs e n s e'

/-- Effect of one `updateRecord` on the stored sha of any email: filled only
while still empty. -/
theorem shaOf_updateRecord :
    ∀ (recs : List (String × EmailStats)) (e n s e' : String),
      shaOf (updateRecord recs e n s) e'
        = if e = e' then (if shaOf recs e' = "" then s else shaOf recs e')
          else shaOf recs e'
  | [], e, n, s, e' => by
    by_cases h : e = e'
    · subst h; simp [shaOf, updateRecord, List.find?]
    · simp [shaOf, updateRecord, List.find?, h, beq_eq_false_iff_ne.mpr h]
  | (a, st) :: recs, e, n, s, e' => by
    by_cases hae : a = e
    · subst hae
      by_cases hae' : a = e'
      · subst hae'; simp [shaOf, updateRecord, List.find?]
      · simp [shaOf, updateRecord, List.find?, hae',
          beq_eq_false_iff_ne.mpr hae', Ne.symm hae']
    · by_cases hae' : a = e'
      · subst hae'
        simp [shaOf, updateRecord, List.find?, beq_eq_false_iff_ne.mpr hae,
          Ne.symm hae]
      · simp only [updateRecord, beq_eq_false_iff_ne.mpr hae, Bool.false_eq_true,
          if_false, shaOf, List.find?, beq_eq_false_iff_ne.mpr hae']
        exact shaOf_updateRecord recs e n s e'

/-- Effect of one `updateRecord` on the stored name of any email. -/
theorem nameOf_updateRecord :
    ∀ (recs : List (String × EmailStats)) (e n s e' : String),
      nameOf (updateRecord recs e n s) e'
        = if e = e' then (if nameOf recs e' = "" then n else nameOf recs e')
          else nameOf recs e'
  | [], e, n, s, e' => by
    by_cases h : e = e'
    · subst h; simp [nameOf, updateRecord, List.find?]
    · simp [nameOf, updateRecord, List.find?, h, beq_eq_false_iff_ne.mpr h]
  | (a, st) :: recs, e, n, s, e' => by
    by_cases hae : a = e
    · subst hae
      by_cases hae' : a = e'
      · subst hae'; simp [nameOf, updateRecord, List.find?]
      · simp [nameOf, updateRecord, List.find?, hae',
          beq_eq_false_iff_ne.mpr hae', Ne.symm hae']
    · by_cases hae' : a = e'
      · subst hae'
        simp [nameOf, updateRecord, List.find?, beq_eq_false_iff_ne.mpr hae,
          Ne.symm hae]
      · simp only [updateRecord, beq_eq_false_iff_ne.mpr hae, Bool.false_eq_true,
          if_false, nameOf, List.find?, beq_eq_false_iff_ne.mpr hae']
        exact nameOf_updateRecord recs e n s e'

/-- The commit count accumulated over a list of lines: count of the starting
record plus the number of well-formed lines carrying the email. -/
theorem foldl_commitsOf :
    ∀ (lines : List String) (acc : List (String × EmailStats)) (e : String),
      commitsOf (lines.foldl processLine acc) e
        = commitsOf acc e + lines.countP (lineMatches e)
  | [], acc, e => by simp
  | line :: lines, acc, e => by
    rw [List.foldl_cons, foldl_commitsOf lines _ e, processLine_eq]
    cases hw : lineWellFormed line with
    | false => simp [List.countP_cons, lineMatches, hw]
    | true =>
      by_cases hm : lineEmail line = e
      · simp [List.countP_cons, lineMatches, hw, hm, commitsOf_updateRecord]
        omega
      · simp [List.countP_cons, lineMatches, hw, hm, commitsOf_updateRecord,
          beq_eq_false_iff_ne.mpr hm]

/-- The sha accumulated over a list of lines: the already-stored sha if
non-empty, else the first non-empty sha among matching lines. -/
theorem foldl_shaOf :
    ∀ (lines : List String) (acc : List (String × EmailStats)) (e : String),
      shaOf (lines.foldl processLine acc) e
        = if shaOf acc e = ""
          then firstNonEmpty ((lines.filter (lineMatches e)).map lineSha)
          else shaOf acc e
  | [], acc, e => by
    by_cases h : shaOf acc e = "" <;> simp [firstNonEmpty, h]
  | line :: lines, acc, e => by
    rw [List.foldl_cons, foldl_shaOf lines _ e, processLine_eq]
    cases hw : lineWellFormed line with
    | false => simp [List.filter_cons, lineMatches, hw]
    | true =>
      rw [if_pos rfl]
      by_cases hm : lineEmail line = e
      · rw [shaOf_updateRecord, if_pos hm]
        by_cases hs : shaOf acc e = ""
        · by_cases hls : lineSha line = "" <;>
            simp [List.filter_cons, lineMatches, hw, hm, hs, hls, firstNonEmpty]
        · simp [List.filter_cons, lineMatches, hw, hm, hs, firstNonEmpty]
      · rw [shaOf_updateRecord, if_neg hm]
        simp [List.filter_cons, lineMatches, hw, beq_eq_false_iff_ne.mpr hm]

/-- The name accumulated over a list of lines. -/
theorem foldl_nameOf :
    ∀ (lines : List String) (acc : List (String × EmailStats)) (e : String),
      nameOf (lines.foldl processLine acc) e
        = if nameOf acc e = ""
          then firstNonEmpty ((lines.filter (lineMatches e)).map lineName)
          else nameOf acc e
  | [], acc, e => by
    by_cases h : nameOf acc e = "" <;> simp [firstNonEmpty, h]
  | line :: lines, acc, e => by
    rw [List.foldl_cons, foldl_nameOf lines _ e, processLine_eq]
    cases hw : lineWellFormed line with
    | false => simp [List.filter_cons, lineMatches, hw]
    | true =>
      rw [if_pos rfl]
      by_cases hm : lineEmail line = e
      · rw [nameOf_updateRecord, if_pos hm]
        by_cases hs : nameOf acc e = ""
        · by_cases hls : lineName line = "" <;>
            simp [List.filter_cons, lineMatches, hw, hm, hs, hls, firstNonEmpty]
        · simp [List.filter_cons, lineMatches, hw, hm, hs, firstNonEmpty]
      · rw [nameOf_updateRecord, if_neg hm]
        simp [List.filter_cons, lineMatches, hw, beq_eq_false_iff_ne.mpr hm]

/-- C5: the aggregated `commits` of every email equals the exact number of
well-formed log lines (at least two `|` separators) carrying that email. -/
theorem c5_commit_count (stdout : String) (e : String) :
    commitsOf (get_commit_email_stats stdout) e
      = (pySplitLines (pyStrip stdout)).countP (lineMatches e) := by
  have h := foldl_commitsOf (pySplitLines (pyStrip stdout)) [] e
  simpa [get_commit_email_stats, aggregateLines, commitsOf] using h

/-- C6 counterexample: in the log `"|e@x|s1\nbob|e@x|s2"` the first line
carrying email `e@x` has name `""`, yet the aggregated name is `"bob"` from
the second line — the aggregation keeps the first *non-empty* name, not the
name of the first matching line. -/
theorem c6_counterexample :
    pySplitLines (pyStrip "|e@x|s1\nbob|e@x|s2") = ["|e@x|s1", "bob|e@x|s2"]
    ∧ lineMatches "e@x" "|e@x|s1" = true
    ∧ lineName "|e@x|s1" = ""
    ∧ nameOf (get_commit_email_stats "|e@x|s1\nbob|e@x|s2") "e@x" = "bob"
    ∧ ("bob" : String) ≠ "" := by
  refine ⟨by decide, by decide, by decide, by decide, by decide⟩

/-- C6 (amended): `sha` and `name` of an email's record are the sha and name
of the first matching line in traversal order whose respective field is
non-empty (empty when no matching line has one); being a pure function of
the log text, the aggregation yields identical values on repeated runs. -/
theorem c6_first_sha_name (stdout : String) (e : String) :
    shaOf (get_commit_email_stats stdout) e
      = firstNonEmpty (((pySplitLines (pyStrip stdout)).filter
          (lineMatches e)).map lineSha)
    ∧ nameOf (get_commit_email_stats stdout) e
      = firstNonEmpty (((pySplitLines (pyStrip stdout)).filter
          (lineMatches e)).map lineName) := by
  constructor
  · have h := foldl_shaOf (pySplitLines (pyStrip stdout)) [] e
    simpa [get_commit_email_stats, aggregateLines, shaOf] using h
  · have h := foldl_nameOf (pySplitLines (pyStrip stdout)) [] e
    simpa [get_commit_email_stats, aggregateLines, nameOf] using h

/-- Stripping removes no `|` characters' worth of well-formedness: the bar
count can only shrink to a sublist's count. -/
theorem barCount_pyStrip_le (s : String) : barCount (pyStrip s) ≤ barCount s := by
  unfold barCount pyStrip
  simp only [List.count_reverse]
  calc List.count '|' ((s.data.dropWhile pyIsSpace).reverse.dropWhile pyIsSpace)
      ≤ List.count '|' (s.data.dropWhile pyIsSpace).reverse :=
        (List.dropWhile_sublist _).count_le _
    _ = List.count '|' (s.data.dropWhile pyIsSpace) := List.count_reverse _ _
    _ ≤ List.count '|' s.data := (List.dropWhile_sublist _).count_le _

/-- C8: a line with fewer than two `|` characters contributes nothing — the
aggregation of any log containing it equals the aggregation of the same log
with the line removed; `get_commit_email_stats` is exactly that aggregation
over the stripped, newline-split stdout. -/
theorem c8_malformed_line_skipped :
    (∀ (pre post : List String) (bad : String),
        barCount bad < 2 →
        aggregateLines (pre ++ bad :: post) = aggregateLines (pre ++ post))
    ∧ (∀ stdout : String,
        get_commit_email_stats stdout
          = aggregateLines (pySplitLines (pyStrip stdout))) := by
  constructor
  · intro pre post bad hbad
    have hstrip : ¬(2 ≤ barCount (pyStrip bad)) := by
      have := barCount_pyStrip_le bad
      omega
    have hskip : ∀ recs, processLine recs bad = recs := by
      intro recs
      simp [processLine, hstrip]
    unfold aggregateLines
    rw [List.foldl_append, List.foldl_append, List.foldl_cons, hskip]
  · intro stdout
    rfl

/-- C8 witness: dropping the malformed line `"bad line"` leaves the
aggregation unchanged. -/
theorem c8_witness :
    aggregateLines ["a|e@x|s1", "bad line", "b|f@y|s2"]
      = aggregateLines ["a|e@x|s1", "b|f@y|s2"] :=
  c8_malformed_line_skipped.1 ["a|e@x|s1"] ["b|f@y|s2"] "bad line" (by decide)

/-! ### Report pipeline lemmas -/

/-- Elements passed over by `orderedInsert byCommitsDesc` have strictly more
commits than the inserted element, so filtering by an exact commit count
commutes with insertion. -/
theorem filter_count_orderedInsert (c : Nat) (x : String × EmailStats) :
    ∀ L : List (String × EmailStats),
      (L.orderedInsert byCommitsDesc x).filter (fun p => p.2.commits == c)
        = if x.2.commits = c
          then x :: L.filter (fun p => p.2.commits == c)
          else L.filter (fun p => p.2.commits == c)
  | [] => by
    by_cases hx : x.2.commits = c <;> simp [List.orderedInsert, hx]
  | y :: L => by
    by_cases hr : byCommitsDesc x y
    · rw [List.orderedInsert, if_pos hr]
      by_cases hx : x.2.commits = c <;> simp [List.filter_cons, hx]
    · rw [List.orderedInsert, if_neg hr, List.filter_cons,
        filter_count_orderedInsert c x L]
      by_cases hx : x.2.commits = c
      · have hy : y.2.commits ≠ c := fun h =>
          hr (show y.2.commits ≤ x.2.commits by omega)
        simp [List.filter_cons, hx, hy]
      · simp [List.filter_cons, hx]

/-- Stability of the descending insertion sort: filtering by an exact commit
count recovers the original relative order of equal-count records. -/
theorem filter_count_insertionSort (c : Nat) :
    ∀ l : List (String × EmailStats),
      (l.insertionSort byCommitsDesc).filter (fun p => p.2.commits == c)
        = l.filter (fun p => p.2.commits == c)
  | [] => rfl
  | x :: l => by
    rw [List.insertionSort, filter_count_orderedInsert,
      filter_count_insertionSort c l, List.filter_cons]
    by_cases hx : x.2.commits = c <;> simp [hx]

/-- C7: the report pipeline keeps exactly the records with at least the
minimum commit count (as a permutation), sorts them by commit count
descending, stably (equal counts keep their aggregation order, recovered by
filtering on an exact count), and truncates to the first `n` rows when a
positive limit is given; on counts 5,3,2,1 a minimum of 3 yields exactly the
5- and 3-records, and limit 1 then yields only the 5-record. -/
theorem c7_report_pipeline :
    (∀ (m : Int) (recs : List (String × EmailStats)),
        (reportRecords m none recs).Perm
          (recs.filter (fun p => m ≤ (p.2.commits : Int))))
  ∧ (∀ (m : Int) (recs : List (String × EmailStats)),
        List.Sorted byCommitsDesc (reportRecords m none recs))
  ∧ (∀ (m : Int) (recs : List (String × EmailStats)) (c : Nat),
        (reportRecords m none recs).filter (fun p => p.2.commits == c)
          = (recs.filter (fun p => m ≤ (p.2.commits : Int))).filter
              (fun p => p.2.commits == c))
  ∧ (∀ (m n : Int) (recs : List (String × EmailStats)), 0 < n →
        reportRecords m (some n) recs = (reportRecords m none recs).take n.toNat)
  ∧ reportRecords 3 none
      [("a", ⟨5, "s5", "A"⟩), ("b", ⟨3, "s3", "B"⟩),
       ("c", ⟨2, "s2", "C"⟩), ("d", ⟨1, "s1", "D"⟩)]
      = [("a", ⟨5, "s5", "A"⟩), ("b", ⟨3, "s3", "B"⟩)]
  ∧ reportRecords 3 (some 1)
      [("a", ⟨5, "s5", "A"⟩), ("b", ⟨3, "s3", "B"⟩),
       ("c", ⟨2, "s2", "C"⟩), ("d", ⟨1, "s1", "D"⟩)]
      = [("a", ⟨5, "s5", "A"⟩)] := by
  refine ⟨?_, ?_, ?_, ?_, by decide, by decide⟩
  · intro m recs
    exact List.perm_insertionSort byCommitsDesc _
  · intro m recs
    exact List.sorted_insertionSort byCommitsDesc _
  · intro m recs c
    exact filter_count_insertionSort c _
  · intro m n recs hn
    have h0 : ¬n = 0 := by omega
    have h1 : 0 ≤ n := le_of_lt hn
    simp [reportRecords, pySlice, h0, h1]

/-- C7 witness: a concrete positive limit truncates to the sorted head. -/
theorem c7_witness :
    reportRecords 1 (some 2)
        [("x", ⟨2, "t2", "X"⟩), ("y", ⟨7, "t7", "Y"⟩), ("z", ⟨4, "t4", "Z"⟩)]
      = (reportRecords 1 none
          [("x", ⟨2, "t2", "X"⟩), ("y", ⟨7, "t7", "Y"⟩), ("z", ⟨4, "t4", "Z"⟩)]).take 2 :=
  c7_report_pipeline.2.2.2.1 1 2 _ (by decide)

/-- C10: a limit given as 0 is falsy for the `if args.limit:` test, so the
pipeline returns every filtered, sorted row, as when no limit is supplied;
non-zero limits slice.  Demonstrated on a concrete four-row dataset. -/
theorem c10_limit_zero :
    (∀ (m : Int) (recs : List (String × EmailStats)),
        reportRecords m (some 0) recs = reportRecords m none recs)
  ∧ reportRecords 1 (some 0)
      [("e", ⟨4, "u4", "E"⟩), ("f", ⟨6, "u6", "F"⟩), ("g", ⟨1, "u1", "G"⟩)]
      = [("f", ⟨6, "u6", "F"⟩), ("e", ⟨4, "u4", "E"⟩), ("g", ⟨1, "u1", "G"⟩)]
  ∧ reportRecords 1 (some 1)
      [("e", ⟨4, "u4", "E"⟩), ("f", ⟨6, "u6", "F"⟩), ("g", ⟨1, "u1", "G"⟩)]
      = [("f", ⟨6, "u6", "F"⟩)] := by
  refine ⟨?_, by decide, by decide⟩
  intro m recs
  simp [reportRecords]

/-! ### URL parsing lemmas -/

/-- Removing a literal prefix succeeds on exactly that prefix. -/
theorem stripPre_append : ∀ (pre rest : List Char), stripPre pre (pre ++ rest) = some rest
  | [], _ => rfl
  | a :: as, rest => by simp [stripPre, stripPre_append as rest]

/-- A successful prefix removal decomposes the input. -/
theorem stripPre_sound : ∀ (pre l rest : List Char),
    stripPre pre l = some rest → l = pre ++ rest
  | [], l, rest, h => by simpa [stripPre] using h
  | _ :: _, [], _, h => by simp [stripPre] at h
  | a :: as, b :: bs, rest, h => by
    by_cases hab : a = b
    · subst hab
      simp only [stripPre, if_pos rfl] at h
      simpa using stripPre_sound as bs rest h
    · simp [stripPre, hab] at h

/-- `takeOwner` splits a slash-free owner followed by `/`. -/
theorem takeOwner_append : ∀ (o rest : List Char), '/' ∉ o →
    takeOwner (o ++ '/' :: rest) = some (o, rest)
  | [], rest, _ => by simp [takeOwner]
  | c :: o, rest, h => by
    rw [List.mem_cons, not_or] at h
    have hc : ¬(c = '/') := fun hce => h.1 hce.symm
    simp [takeOwner, hc, takeOwner_append o rest h.2]

/-- A successful `takeOwner` yields the slash-free segment before the first
`/`. -/
theorem takeOwner_sound : ∀ (u o rest : List Char),
    takeOwner u = some (o, rest) → u = o ++ '/' :: rest ∧ '/' ∉ o
  | [], o, rest, h => by simp [takeOwner] at h
  | c :: u, o, rest, h => by
    by_cases hc : c = '/'
    · subst hc
      simp only [takeOwner, if_pos rfl, Option.some.injEq, Prod.mk.injEq] at h
      obtain ⟨rfl, rfl⟩ := h
      exact ⟨rfl, by simp⟩
    · simp only [takeOwner, if_neg hc, Option.map_eq_some'] at h
      obtain ⟨⟨o', rest'⟩, hu, hf⟩ := h
      obtain ⟨rfl, rfl⟩ := Prod.mk.injEq .. |>.mp hf
      obtain ⟨hu', hmem⟩ := takeOwner_sound u o' rest' hu
      refine ⟨by rw [hu']; rfl, ?_⟩
      rw [List.mem_cons, not_or]
      exact ⟨fun hce => hc hce.symm, hmem⟩

/-- Matchability of the lazy repo group: some candidate is found exactly when
the remaining input splits into a non-empty group avoiding the excluded
character followed by a feasible tail. -/
theorem lazyRepoMatch_isSome (bad : Char) (tailOk : List Char → Bool) :
    ∀ (rest b : List Char),
      (lazyRepoMatch bad tailOk b rest).isSome = true ↔
        ((b ≠ [] ∧ tailOk rest = true)
          ∨ ∃ r t, rest = r ++ t ∧ r ≠ [] ∧ bad ∉ r ∧ tailOk t = true)
  | [], b => by
    constructor
    · intro h
      by_cases hb : b = []
      · subst hb; simp [lazyRepoMatch] at h
      · refine Or.inl ⟨hb, ?_⟩
        by_contra ht
        have ht' : tailOk [] = false := (Bool.not_eq_true _).mp ht
        simp [lazyRepoMatch, ht'] at h
    · rintro (⟨hb, ht⟩ | ⟨r, t, heq, hr, _, _⟩)
      · have hb' : b.isEmpty = false := by cases b with
          | nil => exact absurd rfl hb
          | cons _ _ => rfl
        simp [lazyRepoMatch, hb', ht]
      · exact absurd (List.append_eq_nil.mp heq.symm).1 hr
  | c :: rest, b => by
    by_cases hcond : b ≠ [] ∧ tailOk (c :: rest) = true
    · have hb' : b.isEmpty = false := by cases b with
        | nil => exact absurd rfl hcond.1
        | cons _ _ => rfl
      have : lazyRepoMatch bad tailOk b (c :: rest) = some b.reverse := by
        simp [lazyRepoMatch, hb', hcond.2]
      simp [this, hcond]
    · have hred : lazyRepoMatch bad tailOk b (c :: rest)
          = if c = bad then none else lazyRepoMatch bad tailOk (c :: b) rest := by
        rcases not_and_or.mp hcond with hb | ht
        · have hb' : b = [] := not_not.mp hb
          subst hb'
          simp [lazyRepoMatch]
        · have ht' : tailOk (c :: rest) = false := (Bool.not_eq_true _).mp ht
          simp [lazyRepoMatch, ht']
      rw [hred]
      by_cases hc : c = bad
      · subst hc
        rw [if_pos rfl]
        constructor
        · intro h; simp at h
        · rintro (hl | ⟨r, t, heq, hr, hmem, ht⟩)
          · exact absurd hl hcond
          · cases r with
            | nil => exact absurd rfl hr
            | cons x r' =>
              have hx : c = x := (List.cons.injEq .. |>.mp heq).1
              exact absurd (hx ▸ List.mem_cons_self x r') hmem
      · rw [if_neg hc, lazyRepoMatch_isSome bad tailOk rest (c :: b)]
        constructor
        · rintro (⟨_, ht⟩ | ⟨r, t, heq, hr, hmem, ht⟩)
          · refine Or.inr ⟨[c], rest, rfl, by simp, ?_, ht⟩
            simp only [List.mem_singleton]
            exact fun hbc => hc hbc.symm
          · refine Or.inr ⟨c :: r, t, by rw [heq]; rfl, by simp, ?_, ht⟩
            rw [List.mem_cons, not_or]
            exact ⟨fun hbc => hc hbc.symm, hmem⟩
        · rintro (hl | ⟨r, t, heq, hr, hmem, ht⟩)
          · exact absurd hl hcond
          · cases r with
            | nil => exact absurd rfl hr
            | cons x r' =>
              obtain ⟨rfl, hrest⟩ := List.cons.injEq .. |>.mp heq
              rw [List.mem_cons, not_or] at hmem
              cases r' with
              | nil => exact Or.inl ⟨by simp, by rw [hrest]; simpa using ht⟩
              | cons y r'' =>
                exact Or.inr ⟨y :: r'', t, hrest, by simp, hmem.2, ht⟩

/-- Matchability of the HTTPS repo-and-tail part. -/
theorem findRepoHttps_isSome (rest : List Char) :
    (findRepoHttps [] rest).isSome = true ↔
      ∃ r t, rest = r ++ t ∧ r ≠ [] ∧ '/' ∉ r ∧ httpsTailOk t = true := by
  rw [findRepoHttps, lazyRepoMatch_isSome]
  simp

/-- Matchability of the SSH repo-and-tail part. -/
theorem findRepoSsh_isSome (rest : List Char) :
    (findRepoSsh [] rest).isSome = true ↔
      ∃ r t, rest = r ++ t ∧ r ≠ [] ∧ '\n' ∉ r ∧ sshTailOk t = true := by
  rw [findRepoSsh, lazyRepoMatch_isSome]
  simp

/-- The eight feasible HTTPS tails are exactly the concatenations of an
optional `.git`, an optional `/` and an optional newline. -/
theorem httpsTail_char (t : List Char) :
    httpsTailOk t = true ↔
      ∃ g sl nl : List Char, t = g ++ (sl ++ nl)
        ∧ (g = [] ∨ g = ".git".data)
        ∧ (sl = [] ∨ sl = ['/'])
        ∧ (nl = [] ∨ nl = ['\n']) := by
  constructor
  · intro h
    simp only [httpsTailOk, Bool.or_eq_true, beq_iff_eq] at h
    rcases h with (((((((h | h) | h) | h) | h) | h) | h) | h) <;> subst h
    · exact ⟨[], [], [], rfl, Or.inl rfl, Or.inl rfl, Or.inl rfl⟩
    · exact ⟨[], ['/'], [], rfl, Or.inl rfl, Or.inr rfl, Or.inl rfl⟩
    · exact ⟨[], [], ['\n'], rfl, Or.inl rfl, Or.inl rfl, Or.inr rfl⟩
    · exact ⟨[], ['/'], ['\n'], rfl, Or.inl rfl, Or.inr rfl, Or.inr rfl⟩
    · exact ⟨".git".data, [], [], by decide, Or.inr rfl, Or.inl rfl, Or.inl rfl⟩
    · exact ⟨".git".data, ['/'], [], by decide, Or.inr rfl, Or.inr rfl, Or.inl rfl⟩
    · exact ⟨".git".data, [], ['\n'], by decide, Or.inr rfl, Or.inl rfl, Or.inr rfl⟩
    · exact ⟨".git".data, ['/'], ['\n'], by decide, Or.inr rfl, Or.inr rfl, Or.inr rfl⟩
  · rintro ⟨g, sl, nl, rfl, (rfl | rfl), (rfl | rfl), (rfl | rfl)⟩ <;> decide

/-- The four feasible SSH tails are exactly the concatenations of an optional
`.git` and an optional newline. -/
theorem sshTail_char (t : List Char) :
    sshTailOk t = true ↔
      ∃ g nl : List Char, t = g ++ nl
        ∧ (g = [] ∨ g = ".git".data)
        ∧ (nl = [] ∨ nl = ['\n']) := by
  constructor
  · intro h
    simp only [sshTailOk, Bool.or_eq_true, beq_iff_eq] at h
    rcases h with (((h | h) | h) | h) <;> subst h
    · exact ⟨[], [], rfl, Or.inl rfl, Or.inl rfl⟩
    · exact ⟨[], ['\n'], rfl, Or.inl rfl, Or.inr rfl⟩
    · exact ⟨".git".data, [], by decide, Or.inr rfl, Or.inl rfl⟩
    · exact ⟨".git".data, ['\n'], by decide, Or.inr rfl, Or.inr rfl⟩
  · rintro ⟨g, nl, rfl, (rfl | rfl), (rfl | rfl)⟩ <;> decide

/-- C9 counterexample: the claimed forms allow only an optional `.git`
suffix, yet the parser accepts a trailing slash, a trailing newline, and a
slash inside the SSH repo part instead of raising a format error. -/
theorem c9_counterexample :
    parse_github_url "https://github.com/a/b/" = some ("a", "b")
    ∧ parse_github_url "https://github.com/a/b\n" = some ("a", "b")
    ∧ parse_github_url "git@github.com:a/b/c" = some ("a", "b/c") := by
  refine ⟨by decide, by decide, by decide⟩

/-- C9 (amended): parsing succeeds exactly on
`https://github.com/<owner>/<repo>` (owner and repo non-empty, slash-free)
with an optional `.git` suffix, an optional trailing `/` and an optional
trailing newline, or `git@github.com:<owner>/<repo>` (owner non-empty and
slash-free, repo non-empty and newline-free, slashes allowed) with an
optional `.git` suffix and an optional trailing newline; every other string
takes the `ValueError` branch, before any network action. -/
theorem c9_url_parse_amended :
    (∀ url : String, (parse_github_url url).isSome = true ↔
        (httpsFormSpec url.data ∨ sshFormSpec url.data))
  ∧ parse_github_url "https://github.com/octo/repo.git" = some ("octo", "repo")
  ∧ parse_github_url "git@github.com:octo/repo.git" = some ("octo", "repo")
  ∧ parse_github_url "ftp://github.com/a/b" = none := by
  refine ⟨?_, by decide, by decide, by decide⟩
  intro url
  constructor
  · intro h
    unfold parse_github_url at h
    cases hsp : stripPre "https://github.com/".data url.data with
    | some u =>
      simp only [hsp] at h
      cases hto : takeOwner u with
      | some p =>
        obtain ⟨o, R⟩ := p
        simp only [hto] at h
        by_cases ho : o.isEmpty = true
        · simp [ho] at h
        · simp only [ho, Bool.false_eq_true, if_false, Option.isSome_map',
            findRepoHttps_isSome] at h
          obtain ⟨r, t, hR, hr, hrm, ht⟩ := h
          obtain ⟨g, sl, nl, hT, hg, hslk, hnlk⟩ := (httpsTail_char t).mp ht
          left
          have hu := stripPre_sound _ _ _ hsp
          obtain ⟨hu2, hom⟩ := takeOwner_sound _ _ _ hto
          have hone : o ≠ [] := fun hnil => ho (by rw [hnil]; rfl)
          refine ⟨o, r, g, sl, nl, ?_, hone, hom, hr, hrm, hg, hslk, hnlk⟩
          rw [hu, hu2, hR, hT]
          simp [List.append_assoc]
      | none =>
        simp [hto] at h
    | none =>
      simp only [hsp] at h
      cases hsp2 : stripPre "git@github.com:".data url.data with
      | some u =>
        simp only [hsp2] at h
        cases hto : takeOwner u with
        | some p =>
          obtain ⟨o, R⟩ := p
          simp only [hto] at h
          by_cases ho : o.isEmpty = true
          · simp [ho] at h
          · simp only [ho, Bool.false_eq_true, if_false, Option.isSome_map',
              findRepoSsh_isSome] at h
            obtain ⟨r, t, hR, hr, hrm, ht⟩ := h
            obtain ⟨g, nl, hT, hg, hnlk⟩ := (sshTail_char t).mp ht
            right
            have hu := stripPre_sound _ _ _ hsp2
            obtain ⟨hu2, hom⟩ := takeOwner_sound _ _ _ hto
            have hone : o ≠ [] := fun hnil => ho (by rw [hnil]; rfl)
            refine ⟨o, r, g, nl, ?_, hone, hom, hr, hrm, hg, hnlk⟩
            rw [hu, hu2, hR, hT]
            simp [List.append_assoc]
        | none =>
          simp [hto] at h
      | none =>
        simp [hsp2] at h
  · rintro (⟨o, r, g, sl, nl, heq, hone, hom, hr, hrm, hg, hsl, hnl⟩
      | ⟨o, r, g, nl, heq, hone, hom, hr, hrm, hg, hnl⟩)
    · have ho : o.isEmpty = false := by cases o with
        | nil => exact absurd rfl hone
        | cons _ _ => rfl
      unfold parse_github_url
      simp only [heq, List.append_assoc, stripPre_append,
        takeOwner_append o (r ++ (g ++ (sl ++ nl))) hom, ho, Bool.false_eq_true,
        if_false, Option.isSome_map', findRepoHttps_isSome]
      exact ⟨r, g ++ (sl ++ nl), rfl, hr, hrm,
        (httpsTail_char _).mpr ⟨g, sl, nl, rfl, hg, hsl, hnl⟩⟩
    · have ho : o.isEmpty = false := by cases o with
        | nil => exact absurd rfl hone
        | cons _ _ => rfl
      unfold parse_github_url
      simp only [heq, List.append_assoc]
      simp only [show stripPre "https://github.com/".data
          ("git@github.com:".data ++ (o ++ '/' :: (r ++ (g ++ nl)))) = none from rfl,
        stripPre_append, takeOwner_append o (r ++ (g ++ nl)) hom, ho,
        Bool.false_eq_true, if_false, Option.isSome_map', findRepoSsh_isSome]
      exact ⟨r, g ++ nl, rfl, hr, hrm,
        (sshTail_char _).mpr ⟨g, nl, rfl, hg, hnl⟩⟩

end Coders
